import Mathlib

/-!
# Verification of the sitemapper domain crawler

Shallow embedding of the `sitemapper` Go package (sitemapper.go, config.go)
into Lean 4, together with theorems settling the specification claims.

Conventions of the embedding:
* Go `*url.URL` values become the `URL` structure below, carrying the fields
  the crawler touches (`Scheme`, `Host`, `Path`, `RawQuery`, `ForceQuery`,
  `OmitHost`).  Userinfo, fragments, opaque URLs and percent-escaping are
  outside the model: `parseURL` returns `none` where Go would populate
  `Opaque` or `User`, and escaping functions are the identity (all concrete
  inputs used below are plain ASCII where Go's escaping is also the
  identity).  Byte indices coincide with character indices on such inputs.
* Go maps `map[string]bool` become `List String` of the keys mapped to
  `true` (`mapInsert` / `mapContains`).
* The `sync.RWMutex` of `SiteMap` is modelled by the interleaving system
  `AdmissionState`/`admissionStep` further below; the plain `appendURL`
  function is the lock-serialized (sequential) semantics.
* Fallible Go calls return `Option`/`Except`.
-/

namespace Sitemapper

/-! ## URL model (the parts of Go `net/url` the crawler uses) -/

/-- The fields of Go's `url.URL` that the crawler reads or writes.
Userinfo, `Opaque`, and fragments are not modelled (see module comment). -/
structure URL where
  scheme : String
  host : String
  path : String
  rawQuery : String
  forceQuery : Bool
  omitHost : Bool
deriving DecidableEq, Repr

/-- Build a URL with no query and default flags. -/
def URL.mk4 (scheme host path rawQuery : String) : URL :=
  ⟨scheme, host, path, rawQuery, false, false⟩

/-! ### Character-level string primitives

Kernel-reducible (structurally recursive) counterparts of the Go `strings`
operations the crawler relies on, working through `String.data`.  On the
ASCII inputs of this development Go's byte indices coincide with character
indices. -/

/-- Does `p` lead `c` (Go `strings.HasPrefix p-after-c`)? -/
def charsLead : List Char → List Char → Bool
  | [], _ => true
  | _ :: _, [] => false
  | p :: ps, c :: cs => p = c && charsLead ps cs

/-- Go `strings.HasPrefix s pre`. -/
def strLeads (s pre : String) : Bool := charsLead pre.data s.data

/-- Does `s` end in the character `c` (Go `strings.HasSuffix` for a
one-character suffix)? -/
def strEndsWithChar (c : Char) (s : String) : Bool :=
  match s.data.getLast? with
  | some x => x = c
  | none => false

/-- First `n` characters (Go `s[:n]` on ASCII). -/
def strTake (s : String) (n : Nat) : String := (s.data.take n).asString

/-- All but the first `n` characters (Go `s[n:]` on ASCII). -/
def strDrop (s : String) (n : Nat) : String := (s.data.drop n).asString

/-- All but the last character (Go `strings.TrimSuffix` for a
one-character suffix). -/
def strDropLast (s : String) : String := s.data.dropLast.asString

/-- Go `strings.ContainsRune`. -/
def strContainsChar (c : Char) (s : String) : Bool := s.data.contains c

/-- Go `strings.ToLower` (ASCII). -/
def strToLower (s : String) : String := (s.data.map Char.toLower).asString

/-- Number of characters (Go `len` on ASCII). -/
def strLen (s : String) : Nat := s.data.length

/-- Worker for `splitOnChar`. -/
def splitCharAux (c : Char) : List Char → List Char → List String
  | [], acc => [acc.reverse.asString]
  | x :: rest, acc =>
    if x = c then acc.reverse.asString :: splitCharAux c rest []
    else splitCharAux c rest (x :: acc)

/-- Go `strings.Split s (String.singleton c)` / the repeated
`strings.Cut` loop of `resolvePath`. -/
def splitOnChar (c : Char) (s : String) : List String :=
  splitCharAux c s.data []

/-- Index of the last occurrence of `c`, as in Go `strings.LastIndexByte`
(character index; our inputs are ASCII). -/
def lastIdxOf (c : Char) : List Char → Option Nat
  | [] => none
  | x :: rest =>
    match lastIdxOf c rest with
    | some i => some (i + 1)
    | none => if x = c then some 0 else none

/-- Go `url.URL.String()` restricted to the modelled fields (no opaque,
userinfo or fragment; `EscapedPath` is the identity on the model). -/
def URL.toString (u : URL) : String :=
  (if u.scheme ≠ "" then u.scheme ++ ":" else "")
    ++ (if (u.scheme ≠ "" ∨ u.host ≠ "") ∧ ¬(u.omitHost = true ∧ u.host = "") then
          (if u.host ≠ "" ∨ u.path ≠ "" then "//" else "") ++ u.host
        else "")
    ++ (if u.path ≠ "" ∧ strLeads u.path "/" = false ∧ u.host ≠ "" then "/" else "")
    ++ u.path
    ++ (if u.forceQuery = true ∨ u.rawQuery ≠ "" then "?" ++ u.rawQuery else "")

/-- One step of the dot-segment loop of Go `net/url.resolvePath`: the builder
string `d` (always starting with `/`) and the `first` flag. -/
def dotSegStep (acc : String × Bool) (elem : String) : String × Bool :=
  let d := acc.1
  let first := acc.2
  if elem = "." then (d, false)
  else if elem = ".." then
    let str := strDrop d 1
    match lastIdxOf '/' str.data with
    | none => ("/", true)
    | some i => ("/" ++ strTake str i, first)
  else
    (d ++ (if first then "" else "/") ++ elem, false)

/-- Go `net/url.resolvePath(base, ref)`: merge `ref` onto `base` and remove
dot segments, transcribed from the Go source (builder loop over
`strings.Cut(·, "/")`, trailing `.`/`..` fixup, double-slash fixup). -/
def resolvePath (base ref : String) : String :=
  let full :=
    if ref = "" then base
    else if strLeads ref "/" = false then
      (match lastIdxOf '/' base.data with
       | none => ""
       | some i => strTake base (i + 1)) ++ ref
    else ref
  if full = "" then ""
  else
    let elems := splitOnChar '/' full
    let r0 := elems.foldl dotSegStep ("/", true)
    let last := elems.getLastD ""
    let r1 := if last = "." ∨ last = ".." then r0.1 ++ "/" else r0.1
    if strLen r1 > 1 ∧ strLeads (strDrop r1 1) "/" = true then strDrop r1 1
    else r1

/-- Go `url.URL.ResolveReference` restricted to the modelled fields (the
`Opaque` branch cannot arise because `parseURL` rejects opaque URLs). -/
def resolveReference (u ref : URL) : URL :=
  let url0 := if ref.scheme = "" then { ref with scheme := u.scheme } else ref
  if ref.scheme ≠ "" ∨ ref.host ≠ "" then
    { url0 with path := resolvePath ref.path "" }
  else
    let url1 :=
      if ref.path = "" ∧ ¬ ref.forceQuery ∧ ref.rawQuery = "" then
        { url0 with rawQuery := u.rawQuery }
      else url0
    { url1 with host := u.host, path := resolvePath u.path ref.path }

/-- Go `net/url.getScheme`: split `scheme:rest`; `none` is the
"missing protocol scheme" error. -/
def getSchemeAux (raw : String) : List Char → Nat → Option (String × String)
  | [], _ => some ("", raw)
  | c :: rest, i =>
    if c.isAlpha then getSchemeAux raw rest (i + 1)
    else if c.isDigit ∨ c = '+' ∨ c = '-' ∨ c = '.' then
      if i = 0 then some ("", raw) else getSchemeAux raw rest (i + 1)
    else if c = ':' then
      if i = 0 then none else some (strTake raw i, strDrop raw (i + 1))
    else some ("", raw)

/-- Entry point for `getSchemeAux` on a raw URL string. -/
def getScheme (raw : String) : Option (String × String) :=
  getSchemeAux raw raw.data 0

/-- Split at the first occurrence of `c`, as Go `strings.Cut` (the Bool is
`found`). -/
def cutAt (c : Char) (s : String) : String × String × Bool :=
  let sp := s.data.span (fun x => ¬ (x = c))
  if sp.2 = [] then (s, "", false)
  else (sp.1.asString, (sp.2.drop 1).asString, true)

/-- Go `net/url.stringContainsCTLByte`. -/
def containsCTL (s : String) : Bool :=
  s.data.any (fun c => c.toNat < 0x20 ∨ c.toNat = 0x7f)

/-- Go `net/url.parse(rawURL, viaRequest := false)` restricted to the
modelled fields: `none` covers both Go parse errors and the unmodelled
opaque/userinfo cases.  Fragments are not modelled (no input contains `#`). -/
def parseURL (rawURL : String) : Option URL :=
  if containsCTL rawURL then none
  else if rawURL = "*" then some (URL.mk4 "" "" "*" "")
  else
    match getScheme rawURL with
    | none => none
    | some (scheme0, rest0) =>
      let scheme := strToLower scheme0
      let (rest1, rawQuery, forceQuery) :=
        if strEndsWithChar '?' rest0 = true ∧
            strContainsChar '?' (strDropLast rest0) = false then
          (strDropLast rest0, "", true)
        else
          let c := cutAt '?' rest0
          (c.1, c.2.1, false)
      if strLeads rest1 "/" = false then
        if scheme ≠ "" then none  -- Go stores `rest1` in `Opaque`: unmodelled
        else if strContainsChar ':' (cutAt '/' rest1).1 = true then none
        else some ⟨scheme, "", rest1, rawQuery, forceQuery, false⟩
      else
        if (scheme ≠ "" ∨ strLeads rest1 "///" = false) ∧
            strLeads rest1 "//" = true then
          let afterSlashes := strDrop rest1 2
          let c := cutAt '/' afterSlashes
          let authority := c.1
          let rest2 := if c.2.2 then "/" ++ c.2.1 else ""
          if strContainsChar '@' authority = true then none  -- userinfo: unmodelled
          else some ⟨scheme, authority, rest2, rawQuery, forceQuery, false⟩
        else
          some ⟨scheme, "", rest1, rawQuery, forceQuery, scheme ≠ ""⟩

/-- Go `url.URL.Parse(ref)` (parse then resolve against the receiver). -/
def URL.parseRef (u : URL) (ref : String) : Option URL :=
  (parseURL ref).map (fun refURL => resolveReference u refURL)

/-! ## SiteMap (sitemapper.go) -/

/-- The `map[string]bool` inside `SiteMap`, as the list of keys that map to
`true`.  Lookup: Go `s.siteURLS[urlString]`. -/
def mapContains (m : List String) (k : String) : Bool :=
  m.contains k

/-- Update `m[k] = true`: a no-op when the key is present, otherwise the key
is added. -/
def mapInsert (m : List String) (k : String) : List String :=
  if m.contains k then m else m ++ [k]

/-- `SiteMap` (sitemapper.go): the root URL, the admitted canonical strings,
and the domain validator.  The `sync.RWMutex` field is modelled by the
interleaving system for claim C1; `appendURL` below is the lock-serialized
semantics. -/
structure SiteMap where
  url : URL
  siteURLS : List String
  validator : URL → URL → Bool

/-- `NewSiteMap` (sitemapper.go). -/
def NewSiteMap (url : URL) (validator : URL → URL → Bool) : SiteMap :=
  ⟨url, [], validator⟩

/-- `ValidateHosts` (sitemapper.go): the default domain validation comparing
only the host components. -/
def ValidateHosts (root link : URL) : Bool :=
  root.host == link.host

/-- `SiteMap.appendURL` (sitemapper.go): validator check, read-locked
duplicate check, then write-locked double check and insertion.  Returns the
`crawl` decision and the updated store. -/
def appendURL (s : SiteMap) (url : URL) : Bool × SiteMap :=
  if !(s.validator s.url url) then (false, s)
  else
    let urlString := url.toString
    let maybeCrawl := !(mapContains s.siteURLS urlString)
    if !maybeCrawl then (false, s)
    else
      let crawl := !(mapContains s.siteURLS urlString)
      (crawl, { s with siteURLS := mapInsert s.siteURLS urlString })

/-- Go `sort.Strings`: ascending lexicographic sort. -/
def sortStrings (l : List String) : List String :=
  l.insertionSort (· ≤ ·)

/-- `SiteMap.WriteMap` (sitemapper.go): snapshot the keys, sort them, and
write each followed by a newline.  The writer is modelled by the returned
string. -/
def WriteMap (s : SiteMap) : String :=
  let paths := sortStrings s.siteURLS
  paths.foldl (fun buf path => buf ++ path ++ "\n") ""

/-! ## Config (config.go) -/

/-- `Config` (config.go).  Durations are `Int` nanoseconds; the `Client` and
`Logger` pointers are reduced to their nil-ness (`Option Unit`) because
`Validate` only checks them against nil and the crawl model takes the
network as an explicit oracle. -/
structure Config where
  maxConcurrency : Int
  maxPendingURLS : Int
  crawlTimeout : Int
  keepAlive : Int
  timeout : Int
  client : Option Unit
  logger : Option Unit
  domainValidator : Option (URL → URL → Bool)

/-- `Config.Validate` (config.go): `some msg` is the returned error. -/
def Config.Validate (config : Config) : Option String :=
  if config.maxConcurrency ≤ 0 then
    some "config.MaxConcurrency must be greater than 0"
  else if config.maxPendingURLS ≤ 0 then
    some "config.MaxPendingURLS must be greater than 0"
  else if config.keepAlive < 0 then
    some "config.KeepAlive duration should be >= 0s"
  else if config.timeout < 0 then
    some "config.Timeout duration should be >= 0s"
  else if config.client.isNone then
    some "config.Client must be defined"
  else if config.logger.isNone then
    some "config.Logger must be defined"
  else if config.domainValidator.isNone then
    some "config.DomainValidator must be defined"
  else none

/-! ## LinkReader (sitemapper.go)

The HTTP side is an oracle `Web` mapping the string the crawler passes to
`client.Get` (always `pageURL.String()`) to an outcome.  The body of a
non-redirect response is abstracted to the sequence of `href` attribute
values that the `golang.org/x/net/html` tokenizer yields from it, plus
whether the tokenizer ends with an error other than `io.EOF`. -/

/-- A successful `client.Get` response, abstracted as described above.
`locationHeader = none` models an absent `Location` header
(`Header.Get` returning `""`). -/
structure FetchResponse where
  statusCode : Nat
  locationHeader : Option String
  hrefs : List String
  bodyReadError : Bool
deriving DecidableEq, Repr

/-- Outcome of `client.Get`: transport error or a response. -/
inductive FetchOutcome where
  | fetchErr
  | ok (resp : FetchResponse)
deriving DecidableEq, Repr

/-- The network oracle, keyed by the requested URL string. -/
def Web : Type := String → FetchOutcome

/-- Go `http.Response.Location()`: the `Location` header resolved against
the request URL (`r.Request.URL.Parse(lv)`); `none` models both
`ErrNoLocation` and a parse error. -/
def respLocation (reqURL : URL) (resp : FetchResponse) : Option URL :=
  match resp.locationHeader with
  | none => none
  | some lv => if lv = "" then none else reqURL.parseRef lv

/-- The observable result of one `LinkReader.Read` call:  a link, `io.EOF`,
or any other error. -/
inductive ReadResult where
  | link (href : String)
  | eof
  | readErr
deriving DecidableEq, Repr

/-- `LinkReader` (sitemapper.go).  `fetched` models `u.doc != nil`;
`pendingHrefs` is the not-yet-consumed tokenizer output; `bodyClosed`
records `resp.Body.Close()` having been called (on the redirect path the
body is closed without being scanned). -/
structure LinkReader where
  pageURL : URL
  fetched : Bool
  done : Bool
  pendingHrefs : List String
  pendingReadError : Bool
  bodyClosed : Bool
deriving DecidableEq, Repr

/-- `NewLinkReader` (sitemapper.go). -/
def NewLinkReader (pageURL : URL) : LinkReader :=
  ⟨pageURL, false, false, [], false, true⟩

/-- The tokenizer loop at the bottom of `LinkReader.Read`: yield the next
pending href, or close the body and report `u.doc.Err()` (EOF or a read
error). -/
def LinkReader.readTokens (u : LinkReader) : ReadResult × LinkReader :=
  match u.pendingHrefs with
  | href :: rest => (.link href, { u with pendingHrefs := rest })
  | [] =>
    if u.pendingReadError then (.readErr, { u with bodyClosed := true })
    else (.eof, { u with bodyClosed := true })

/-- `LinkReader.Read` (sitemapper.go): done check, lazy GET on first call,
redirect branch reading the `Location` header, else the tokenizer loop. -/
def LinkReader.Read (web : Web) (u : LinkReader) : ReadResult × LinkReader :=
  if u.done then (.eof, u)
  else if u.fetched = false then
    match web u.pageURL.toString with
    | .fetchErr => (.readErr, u)  -- `u.doc` stays nil
    | .ok resp =>
      let u1 := { u with fetched := true, pendingHrefs := resp.hrefs,
                         pendingReadError := resp.bodyReadError,
                         bodyClosed := false }
      if 300 ≤ resp.statusCode ∧ resp.statusCode ≤ 399 then
        let u2 := { u1 with bodyClosed := true }
        match respLocation u.pageURL resp with
        | none => (.readErr, u2)
        | some locationURL => (.link locationURL.toString, { u2 with done := true })
      else
        u1.readTokens
  else u.readTokens

/-- The sequence of links `realAllLinks` obtains by calling `Read` until a
non-link result, paired with whether the loop ended on an error other than
`io.EOF` (which `realAllLinks` only logs).  This is `LinkReader.Read`
composed with the read loop of `realAllLinks`. -/
def extractAll (web : Web) (pageURL : URL) : List String × Bool :=
  match web pageURL.toString with
  | .fetchErr => ([], true)
  | .ok resp =>
    if 300 ≤ resp.statusCode ∧ resp.statusCode ≤ 399 then
      match respLocation pageURL resp with
      | none => ([], true)
      | some locationURL => ([locationURL.toString], false)
    else (resp.hrefs, resp.bodyReadError)

/-! ## The crawl loop (sitemapper.go), sequential operational model

`DomainCrawler` with `MaxConcurrency = 1`: one worker drains the buffered
channel; the model is its small-step semantics with the timeout flag
supplied per iteration.  Ghost fields (`fetchedURLs`, `droppedLinks`,
`queued`, `incCount`, `decCount`, `closedCount`) record events for the
statements of the claims and have no influence on control flow. -/

/-- The state of `DomainCrawler` plus ghost event counters.
`backlog` is the contents of the `pendingURLS` buffered channel, `cap` its
capacity (`MaxPendingURLS`), `wg` the `pendingURLSRemaining` counter, and
`accessed` the `accessedPageCount`. -/
structure CrawlerState where
  root : URL
  cap : Nat
  siteMap : SiteMap
  backlog : List URL
  wg : Int
  accessed : Nat
  fetchedURLs : List URL
  droppedLinks : List String
  queued : List String
  incCount : Nat
  decCount : Nat
  closedCount : Nat

/-- The per-link body of `realAllLinks` (sitemapper.go): count the access,
parse the href, resolve it against the page, ask `appendURL`, and on
admission do the non-blocking `select` push (accept registers one unit of
work; the full-channel `default` drops and logs the link). -/
def processLink (st : CrawlerState) (pageURL : URL) (hrefString : String) :
    CrawlerState :=
  let st1 := { st with accessed := st.accessed + 1 }
  match parseURL hrefString with
  | none => st1  -- per-link parse error: logged, loop continues
  | some hrefURL =>
    let hrefResolved := resolveReference pageURL hrefURL
    let res := appendURL st1.siteMap hrefResolved
    let st2 := { st1 with siteMap := res.2 }
    if res.1 then
      if st2.backlog.length < st2.cap then
        { st2 with backlog := st2.backlog ++ [hrefResolved],
                   wg := st2.wg + 1,
                   incCount := st2.incCount + 1,
                   queued := st2.queued ++ [hrefResolved.toString] }
      else
        { st2 with droppedLinks := st2.droppedLinks ++ [hrefResolved.toString] }
    else st2

/-- The fetch-and-extract part of one `drainURLS` iteration: `NewLinkReader`,
`realAllLinks`, `Close` (link extraction errors are only logged, so the
partial link list is processed). -/
def processPage (web : Web) (st : CrawlerState) (pageURL : URL) :
    CrawlerState :=
  let st := { st with fetchedURLs := st.fetchedURLs ++ [pageURL] }
  let links := (extractAll web pageURL).1
  links.foldl (fun s l => processLink s pageURL l) st

/-- One iteration of the `for pageURL := range crawler.pendingURLS` loop in
`drainURLS`: pop, then either skip (timeout) or crawl the page, and always
`pendingURLSRemaining.Done()`. -/
def drainStep (web : Web) (timedOut : Bool) (st : CrawlerState) :
    CrawlerState :=
  match st.backlog with
  | [] => st  -- pop blocks; the loop driver never steps here
  | pageURL :: rest =>
    let st1 := { st with backlog := rest }
    let st2 := if timedOut then st1 else processPage web st1 pageURL
    { st2 with wg := st2.wg - 1, decCount := st2.decCount + 1 }

/-- The value of `crawler.timedOut` at iteration `i`, for a timer that fires
between iterations `n-1` and `n` (`none`: the timer never fires, as when
`crawlTimeout ≤ 0`). -/
def flagAt (stopAfter : Option Nat) (i : Nat) : Bool :=
  match stopAfter with
  | none => false
  | some n => n ≤ i

/-- Run the drain loop for at most `fuel` iterations from iteration index
`i`; stops early when the channel is empty (at which point, with
concurrency 1, `Wait` returns). -/
def crawlLoop (web : Web) (stopAfter : Option Nat) :
    Nat → Nat → CrawlerState → CrawlerState
  | 0, _, st => st
  | fuel + 1, i, st =>
    match st.backlog with
    | [] => st
    | _ :: _ => crawlLoop web stopAfter fuel (i + 1)
        (drainStep web (flagAt stopAfter i) st)

/-- `NewDomainCrawler` (sitemapper.go): validate the config, create the site
map, seed the channel with the root (one unit of outstanding work). -/
def newDomainCrawler (root : URL) (config : Config) :
    Except String CrawlerState :=
  match config.Validate with
  | some e => .error e
  | none =>
    -- `Validate` guarantees `domainValidator` is set; the default is never
    -- reached.
    let validator := config.domainValidator.getD (fun _ _ => false)
    let siteMap := NewSiteMap root validator
    .ok { root := root
          cap := config.maxPendingURLS.toNat
          siteMap := siteMap
          backlog := [root]
          wg := 1
          accessed := 0
          fetchedURLs := []
          droppedLinks := []
          queued := [root.toString]
          incCount := 1
          decCount := 0
          closedCount := 0 }

/-- `DomainCrawler.Crawl` (sitemapper.go): run the workers, wait for the
counter to reach zero, close the channel, then report.  `none` models a
`Wait` that has not yet returned within `fuel` iterations. -/
def Crawl (web : Web) (stopAfter : Option Nat) (fuel : Nat)
    (st : CrawlerState) : Option (Except String SiteMap × CrawlerState) :=
  let final := crawlLoop web stopAfter fuel 0 st
  match final.backlog with
  | _ :: _ => none
  | [] =>
    let final := { final with closedCount := final.closedCount + 1 }
    if final.accessed = 0 then
      (some (.error ("unable to access url " ++ st.root.toString), final))
    else some (.ok final.siteMap, final)

/-- `CrawlDomainWithURL` (sitemapper.go): `NewConfig` is applied by the
caller; here the validated construction and the crawl.  A configuration
error is returned before the web oracle is ever consulted. -/
def CrawlDomainWithURL (web : Web) (stopAfter : Option Nat) (fuel : Nat)
    (root : URL) (config : Config) : Option (Except String SiteMap) :=
  match newDomainCrawler root config with
  | .error e => some (.error e)
  | .ok st => (Crawl web stopAfter fuel st).map (fun r => r.1)

/-! ## Concurrent admission (the RWMutex protocol of `appendURL`)

For claim C1 the double-checked locking in `appendURL` is modelled as an
interleaving system: `n` calls on the same candidate string race on the
shared key set.  Each call performs at most two atomic critical sections:
the read-locked duplicate check and the write-locked test-and-set. -/

/-- Where one concurrent `appendURL` call stands. -/
inductive AdmissionPhase where
  | idle
  | checked (maybeCrawl : Bool)
  | done (ret : Bool)
deriving DecidableEq, Repr

/-- Shared state: the keys of `siteURLS` plus each call's phase. -/
structure AdmissionState where
  keys : List String
  phases : List AdmissionPhase
deriving DecidableEq, Repr

/-- Let call `i` take its next atomic step.  `validate` is the (pure,
lock-free) validator verdict for the shared candidate, `key` its canonical
string.  Out-of-range or finished calls leave the state unchanged. -/
def admissionStep (validate : Bool) (key : String) (st : AdmissionState)
    (i : Nat) : AdmissionState :=
  match st.phases[i]? with
  | none => st
  | some .idle =>
    if validate then
      { st with phases :=
          st.phases.set i (.checked (!(mapContains st.keys key))) }
    else { st with phases := st.phases.set i (.done false) }
  | some (.checked false) => { st with phases := st.phases.set i (.done false) }
  | some (.checked true) =>
    { st with keys := mapInsert st.keys key,
              phases := st.phases.set i (.done (!(mapContains st.keys key))) }
  | some (.done _) => st

/-- Run a schedule of interleaved steps. -/
def admissionRun (validate : Bool) (key : String) (sched : List Nat)
    (st : AdmissionState) : AdmissionState :=
  sched.foldl (admissionStep validate key) st

/-- How many of the concurrent calls have returned `true`. -/
def trueCount (st : AdmissionState) : Nat :=
  st.phases.countP (fun p => p == .done true)

/-! ## Helper lemmas about the store primitives -/

theorem mapContains_iff (m : List String) (k : String) :
    mapContains m k = true ↔ k ∈ m := by
  simp [mapContains, List.elem_iff]

theorem mapContains_eq_false_iff (m : List String) (k : String) :
    mapContains m k = false ↔ k ∉ m := by
  rw [← Bool.not_eq_true, mapContains_iff]

theorem mem_mapInsert_self (m : List String) (k : String) :
    k ∈ mapInsert m k := by
  unfold mapInsert
  split
  · next h => exact (mapContains_iff m k).mp h
  · exact List.mem_append_right m (List.mem_singleton.mpr rfl)

theorem mem_mapInsert_of_mem (m : List String) (k a : String) (ha : a ∈ m) :
    a ∈ mapInsert m k := by
  unfold mapInsert
  split
  · exact ha
  · exact List.mem_append_left _ ha

theorem mem_of_mem_mapInsert (m : List String) (k a : String)
    (ha : a ∈ mapInsert m k) : a ∈ m ∨ a = k := by
  unfold mapInsert at ha
  split at ha
  · exact Or.inl ha
  · rcases List.mem_append.mp ha with h | h
    · exact Or.inl h
    · exact Or.inr (List.mem_singleton.mp h)

theorem mapInsert_of_not_mem (m : List String) (k : String) (h : k ∉ m) :
    mapInsert m k = m ++ [k] := by
  unfold mapInsert
  rw [if_neg]
  intro hc
  exact h ((mapContains_iff m k).mp hc)

/-- The admission verdict of `appendURL`: in-domain and not yet present. -/
theorem appendURL_fst (s : SiteMap) (u : URL) :
    (appendURL s u).1
      = (s.validator s.url u && !(mapContains s.siteURLS u.toString)) := by
  unfold appendURL
  by_cases hv : s.validator s.url u = true
  · by_cases hm : mapContains s.siteURLS u.toString = true
    · simp [hv, hm]
    · simp only [Bool.not_eq_true] at hm
      simp [hv, hm]
  · simp only [Bool.not_eq_true] at hv
    simp [hv]

/-- The store after `appendURL`: extended by the canonical string exactly
when the call returned `true`, untouched otherwise. -/
theorem appendURL_snd (s : SiteMap) (u : URL) :
    (appendURL s u).2
      = if (appendURL s u).1 = true then
          { s with siteURLS := s.siteURLS ++ [u.toString] }
        else s := by
  unfold appendURL
  by_cases hv : s.validator s.url u = true
  · by_cases hm : mapContains s.siteURLS u.toString = true
    · simp [hv, hm]
    · simp only [Bool.not_eq_true] at hm
      have hnotmem : u.toString ∉ s.siteURLS :=
        (mapContains_eq_false_iff _ _).mp hm
      simp [hv, hm, mapInsert_of_not_mem _ _ hnotmem]
  · simp only [Bool.not_eq_true] at hv
    simp [hv]

theorem appendURL_url (s : SiteMap) (u : URL) :
    (appendURL s u).2.url = s.url := by
  rw [appendURL_snd]; split <;> rfl

theorem appendURL_validator (s : SiteMap) (u : URL) :
    (appendURL s u).2.validator = s.validator := by
  rw [appendURL_snd]; split <;> rfl

theorem appendURL_mono (s : SiteMap) (u : URL) (k : String)
    (hk : k ∈ s.siteURLS) : k ∈ (appendURL s u).2.siteURLS := by
  rw [appendURL_snd]
  split
  · exact List.mem_append_left _ hk
  · exact hk

/-- Once a canonical string is in the store, every later `appendURL` of a
URL with that string returns `false`. -/
theorem appendURL_false_of_mem (s : SiteMap) (u : URL)
    (h : u.toString ∈ s.siteURLS) : (appendURL s u).1 = false := by
  rw [appendURL_fst, (mapContains_iff _ _).mpr h]
  simp

/-! ## Rendering helpers (for C8 and C9) -/

/-- "One string per line, each terminated by a newline" — the shape the
spec prescribes for the rendered site map. -/
def lineConcat : List String → String
  | [] => ""
  | p :: rest => p ++ "\n" ++ lineConcat rest

theorem foldl_line_eq (l : List String) :
    ∀ acc : String,
      l.foldl (fun buf path => buf ++ path ++ "\n") acc = acc ++ lineConcat l := by
  induction l with
  | nil => intro acc; simp [lineConcat]
  | cons p rest ih =>
    intro acc
    simp only [List.foldl_cons, lineConcat, ih]
    simp [String.append_assoc]

theorem lineConcat_ends_newline (l : List String) (h : l ≠ []) :
    ∃ t, lineConcat l = t ++ "\n" := by
  induction l with
  | nil => exact absurd rfl h
  | cons p rest ih =>
    cases rest with
    | nil =>
      refine ⟨p, ?_⟩
      simp [lineConcat]
    | cons q rest' =>
      obtain ⟨t, ht⟩ := ih (by simp)
      refine ⟨p ++ "\n" ++ t, ?_⟩
      show p ++ "\n" ++ lineConcat (q :: rest') = p ++ "\n" ++ t ++ "\n"
      rw [ht]
      simp [String.append_assoc]

theorem sortStrings_perm (l : List String) : (sortStrings l).Perm l :=
  List.perm_insertionSort _ l

theorem mem_sortStrings_iff (l : List String) (k : String) :
    k ∈ sortStrings l ↔ k ∈ l :=
  (sortStrings_perm l).mem_iff

/-! ## Claim theorems -/

/-- C6.  Domain filter: under the default `ValidateHosts` policy, any
candidate whose host differs from the root's host is refused by
`appendURL` — it returns `false` and leaves the site map untouched —
regardless of the candidate's scheme or path. -/
theorem C6_domain_filter (s : SiteMap) (link : URL)
    (hval : s.validator = ValidateHosts)
    (hhost : link.host ≠ s.url.host) :
    (appendURL s link).1 = false ∧ (appendURL s link).2 = s := by
  have hv : s.validator s.url link = false := by
    rw [hval]
    unfold ValidateHosts
    exact beq_eq_false_iff_ne.mpr fun h => hhost h.symm
  constructor
  · rw [appendURL_fst, hv, Bool.false_and]
  · rw [appendURL_snd, appendURL_fst, hv, Bool.false_and]
    simp

/-- Witness for C6 at a concrete external link. -/
theorem C6_domain_filter_witness :
    (appendURL (NewSiteMap (URL.mk4 "http" "e.com" "/" "") ValidateHosts)
        (URL.mk4 "http" "picsum.org" "" "")).1 = false ∧
    (appendURL (NewSiteMap (URL.mk4 "http" "e.com" "/" "") ValidateHosts)
        (URL.mk4 "http" "picsum.org" "" "")).2
      = NewSiteMap (URL.mk4 "http" "e.com" "/" "") ValidateHosts :=
  C6_domain_filter _ _ rfl (by decide)

/-- C8.  `WriteMap` renders exactly the admitted set (the rendered line
list is a permutation of the stored keys), sorted lexicographically, one
string per line each terminated by `"\n"` (hence a trailing newline when
the set is nonempty); the store itself is a value that `WriteMap` only
reads. -/
theorem C8_writeMap (s : SiteMap) :
    (sortStrings s.siteURLS).Perm s.siteURLS ∧
    List.Sorted (· ≤ ·) (sortStrings s.siteURLS) ∧
    WriteMap s = lineConcat (sortStrings s.siteURLS) ∧
    (s.siteURLS ≠ [] → ∃ t, WriteMap s = t ++ "\n") := by
  refine ⟨sortStrings_perm _, List.sorted_insertionSort _ _, ?_, ?_⟩
  · unfold WriteMap
    simpa using foldl_line_eq (sortStrings s.siteURLS) ""
  · intro hne
    have hs : sortStrings s.siteURLS ≠ [] := by
      intro h
      exact hne (((sortStrings_perm s.siteURLS).symm.trans (h ▸ List.Perm.refl [])).eq_nil)
    obtain ⟨t, ht⟩ := lineConcat_ends_newline _ hs
    refine ⟨t, ?_⟩
    unfold WriteMap
    simpa [ht] using foldl_line_eq (sortStrings s.siteURLS) ""

/-- Witness for C8 on a concrete three-element store. -/
theorem C8_writeMap_witness :
    (sortStrings ["b", "a", "c"]).Perm ["b", "a", "c"] ∧
    List.Sorted (· ≤ ·) (sortStrings ["b", "a", "c"]) ∧
    WriteMap ⟨URL.mk4 "http" "e.com" "/" "", ["b", "a", "c"], ValidateHosts⟩
      = lineConcat (sortStrings ["b", "a", "c"]) ∧
    (["b", "a", "c"] ≠ ([] : List String) →
      ∃ t, WriteMap ⟨URL.mk4 "http" "e.com" "/" "", ["b", "a", "c"], ValidateHosts⟩
        = t ++ "\n") :=
  C8_writeMap ⟨URL.mk4 "http" "e.com" "/" "", ["b", "a", "c"], ValidateHosts⟩

/-! ### C7: configuration validation -/

/-- A configuration that is valid in every respect except for a negative
crawl deadline (`SetCrawlTimeout (-1)` over the defaults). -/
def cfgNegDeadline : Config :=
  ⟨8, 8192, -1, 30000000000, 10000000000, some (), some (), some ValidateHosts⟩

/-- A root URL used by the concrete scenarios. -/
def rootEx : URL := URL.mk4 "http" "e.com" "/" ""

/-- C7 counterexample: `Config.Validate` accepts a negative crawl deadline
(`CrawlTimeout = -1` passes validation and the crawler is constructed), so
a negative deadline does not cause a configuration error. -/
theorem C7_counterexample :
    cfgNegDeadline.crawlTimeout < 0 ∧
    Config.Validate cfgNegDeadline = none ∧
    ∃ st, newDomainCrawler rootEx cfgNegDeadline = .ok st :=
  ⟨by decide, rfl, ⟨_, rfl⟩⟩

/-- C7 (amended).  Non-positive concurrency or capacity fails `Validate`,
and any validation error makes the crawl fail fast with that error, for
every web oracle — i.e. before any fetch.  The crawl deadline, however, is
not consulted by `Validate` at all (a negative deadline is accepted; per
`SetCrawlTimeout`'s documentation it simply means "no timeout"). -/
theorem C7_failfast_validation (config : Config) :
    (config.maxConcurrency ≤ 0 ∨ config.maxPendingURLS ≤ 0 →
      ∃ e, config.Validate = some e) ∧
    (∀ e, config.Validate = some e →
      ∀ (web : Web) (stopAfter : Option Nat) (fuel : Nat) (root : URL),
        CrawlDomainWithURL web stopAfter fuel root config = some (.error e)) ∧
    (∀ t : Int, Config.Validate { config with crawlTimeout := t }
        = config.Validate) := by
  refine ⟨?_, ?_, ?_⟩
  · intro h
    unfold Config.Validate
    rcases h with h | h
    · exact ⟨_, if_pos h⟩
    · by_cases hc : config.maxConcurrency ≤ 0
      · exact ⟨_, if_pos hc⟩
      · rw [if_neg hc]
        exact ⟨_, if_pos h⟩
  · intro e he web stopAfter fuel root
    unfold CrawlDomainWithURL newDomainCrawler
    rw [he]
  · intro t
    unfold Config.Validate
    rfl

/-- Witness for C7's amended theorem at a concrete invalid configuration
(`MaxConcurrency = 0`, as in the repository's `TestInvalidConfiguration`). -/
theorem C7_failfast_validation_witness :
    ∃ e, Config.Validate
        ⟨0, 8192, 0, 30000000000, 10000000000, some (), some (), some ValidateHosts⟩
        = some e ∧
      CrawlDomainWithURL (fun _ => .fetchErr) none 0 rootEx
        ⟨0, 8192, 0, 30000000000, 10000000000, some (), some (), some ValidateHosts⟩
        = some (.error e) := by
  obtain ⟨e, he⟩ :=
    (C7_failfast_validation
      ⟨0, 8192, 0, 30000000000, 10000000000, some (), some (), some ValidateHosts⟩).1
      (Or.inl (by decide))
  exact ⟨e, he,
    (C7_failfast_validation _).2.1 e he (fun _ => .fetchErr) none 0 rootEx⟩

/-! ### C5: redirect handling in the Link Extractor -/

/-- The page whose GET returns a redirect in the concrete C5 scenario. -/
def pageSecret : URL := URL.mk4 "http" "e.com" "/secret" ""

/-- A web whose only page replies `301` with a relative `Location`. -/
def webRedirect : Web := fun s =>
  if s = "http://e.com/secret" then .ok ⟨301, some "/hidden", [], false⟩
  else .fetchErr

/-- C5 counterexample: on a `301` whose `Location` header is the relative
string `"/hidden"`, the first `Read` yields `"http://e.com/hidden"` — the
header value resolved against the page URL (Go `Response.Location`
resolves relative redirects against the request URL) — and not the
unresolved header value `"/hidden"` the claim describes. -/
theorem C5_counterexample :
    ((NewLinkReader pageSecret).Read webRedirect).1
        = .link "http://e.com/hidden" ∧
    ((NewLinkReader pageSecret).Read webRedirect).1 ≠ .link "/hidden" :=
  ⟨rfl, by decide⟩

/-- C5 (amended).  When the first pull's GET returns a 3xx response with a
nonempty, parseable `Location` header, `Read` yields — as the single
element of the sequence — the `Location` value resolved against the page
URL (via `Response.Location`), marks the reader done (the next `Read`
returns end-of-sequence and changes nothing), and closes the body without
scanning it: the yielded value is the same for every body the response
may carry, because only the header is consulted. -/
theorem C5_redirect_read (web : Web) (pageURL : URL) (resp : FetchResponse)
    (hweb : web pageURL.toString = .ok resp)
    (hst : 300 ≤ resp.statusCode ∧ resp.statusCode ≤ 399)
    (lv : String) (hlv : resp.locationHeader = some lv) (hne : lv ≠ "")
    (ref : URL) (hp : parseURL lv = some ref) :
    ((NewLinkReader pageURL).Read web).1
        = .link (resolveReference pageURL ref).toString ∧
    ((NewLinkReader pageURL).Read web).2.done = true ∧
    ((NewLinkReader pageURL).Read web).2.bodyClosed = true ∧
    (((NewLinkReader pageURL).Read web).2.Read web).1 = .eof ∧
    (((NewLinkReader pageURL).Read web).2.Read web).2
        = ((NewLinkReader pageURL).Read web).2 := by
  have hloc : respLocation pageURL resp = some (resolveReference pageURL ref) := by
    unfold respLocation
    rw [hlv]
    simp [hne, URL.parseRef, hp]
  have hread : (NewLinkReader pageURL).Read web
      = (.link (resolveReference pageURL ref).toString,
         { pageURL := pageURL, fetched := true, done := true,
           pendingHrefs := resp.hrefs, pendingReadError := resp.bodyReadError,
           bodyClosed := true }) := by
    unfold NewLinkReader LinkReader.Read
    simp only [Bool.false_eq_true, if_false, Bool.not_false, if_true, hweb]
    rw [if_pos hst, hloc]
  rw [hread]
  refine ⟨rfl, rfl, rfl, ?_, ?_⟩ <;>
    · unfold LinkReader.Read
      simp

/-- Witness for C5's amended theorem at the concrete redirect scenario. -/
theorem C5_redirect_read_witness :
    ((NewLinkReader pageSecret).Read webRedirect).1
        = .link (resolveReference pageSecret
            (URL.mk4 "" "" "/hidden" "")).toString ∧
    ((NewLinkReader pageSecret).Read webRedirect).2.done = true ∧
    ((NewLinkReader pageSecret).Read webRedirect).2.bodyClosed = true ∧
    (((NewLinkReader pageSecret).Read webRedirect).2.Read webRedirect).1
        = .eof ∧
    (((NewLinkReader pageSecret).Read webRedirect).2.Read webRedirect).2
        = ((NewLinkReader pageSecret).Read webRedirect).2 :=
  C5_redirect_read webRedirect pageSecret ⟨301, some "/hidden", [], false⟩
    rfl (by decide) "/hidden" rfl (by decide) (URL.mk4 "" "" "/hidden" "")
    (by decide)

/-! ## Crawl-loop invariant infrastructure -/

/-- Fields of the crawler state that no `processLink` call ever changes,
plus the access counter going up by exactly one per link read. -/
theorem processLink_const (st : CrawlerState) (p : URL) (h : String) :
    (processLink st p h).root = st.root ∧
    (processLink st p h).cap = st.cap ∧
    (processLink st p h).fetchedURLs = st.fetchedURLs ∧
    (processLink st p h).decCount = st.decCount ∧
    (processLink st p h).closedCount = st.closedCount ∧
    (processLink st p h).accessed = st.accessed + 1 ∧
    (processLink st p h).siteMap.url = st.siteMap.url ∧
    (processLink st p h).siteMap.validator = st.siteMap.validator := by
  unfold processLink
  cases hp : parseURL h with
  | none => simp
  | some hrefURL =>
    simp only
    by_cases hr : (appendURL st.siteMap (resolveReference p hrefURL)).1 = true
    · by_cases hlen : st.backlog.length < st.cap
      · simp [hr, hlen, appendURL_url, appendURL_validator]
      · simp [hr, hlen, appendURL_url, appendURL_validator]
    · simp only [Bool.not_eq_true] at hr
      simp [hr, appendURL_url, appendURL_validator]

/-- Either `processLink` leaves queue, counter and store untouched, or it
admits one fresh URL and then either queues it (one `Add(1)`) or drops it
(full channel). -/
theorem processLink_cases (st : CrawlerState) (p : URL) (h : String) :
    (processLink st p h).backlog = st.backlog ∧
    (processLink st p h).wg = st.wg ∧
    (processLink st p h).incCount = st.incCount ∧
    (processLink st p h).queued = st.queued ∧
    (processLink st p h).droppedLinks = st.droppedLinks ∧
    (processLink st p h).siteMap.siteURLS = st.siteMap.siteURLS
    ∨
    ∃ hrefURL, parseURL h = some hrefURL ∧
      (appendURL st.siteMap (resolveReference p hrefURL)).1 = true ∧
      (processLink st p h).siteMap.siteURLS
        = st.siteMap.siteURLS ++ [(resolveReference p hrefURL).toString] ∧
      ((st.backlog.length < st.cap ∧
        (processLink st p h).backlog
          = st.backlog ++ [resolveReference p hrefURL] ∧
        (processLink st p h).wg = st.wg + 1 ∧
        (processLink st p h).incCount = st.incCount + 1 ∧
        (processLink st p h).queued
          = st.queued ++ [(resolveReference p hrefURL).toString] ∧
        (processLink st p h).droppedLinks = st.droppedLinks)
       ∨
       (st.cap ≤ st.backlog.length ∧
        (processLink st p h).backlog = st.backlog ∧
        (processLink st p h).wg = st.wg ∧
        (processLink st p h).incCount = st.incCount ∧
        (processLink st p h).queued = st.queued ∧
        (processLink st p h).droppedLinks
          = st.droppedLinks ++ [(resolveReference p hrefURL).toString])) := by
  unfold processLink
  cases hp : parseURL h with
  | none => left; simp
  | some hrefURL =>
    simp only
    by_cases hr : (appendURL st.siteMap (resolveReference p hrefURL)).1 = true
    · right
      refine ⟨hrefURL, rfl, hr, ?_, ?_⟩
      · have := appendURL_snd st.siteMap (resolveReference p hrefURL)
        by_cases hlen : st.backlog.length < st.cap <;>
          simp [hr, hlen, this]
      · by_cases hlen : st.backlog.length < st.cap
        · left
          have := appendURL_snd st.siteMap (resolveReference p hrefURL)
          simp [hr, hlen, this]
        · right
          have := appendURL_snd st.siteMap (resolveReference p hrefURL)
          simp [hr, hlen, this]
          omega
    · left
      simp only [Bool.not_eq_true] at hr
      have := appendURL_snd st.siteMap (resolveReference p hrefURL)
      simp [hr, this]

/-- Invariants preserved by every `processLink` are preserved by the
per-page fold of `realAllLinks`. -/
theorem foldl_processLink_inv (P : CrawlerState → Prop) (page : URL)
    (hstep : ∀ st href, P st → P (processLink st page href)) :
    ∀ (links : List String) (st : CrawlerState), P st →
      P (links.foldl (fun s l => processLink s page l) st) := by
  intro links
  induction links with
  | nil => intro st h; exact h
  | cons l rest ih => intro st h; exact ih _ (hstep st l h)

/-- Invariants preserved by every `drainStep` on a nonempty backlog are
preserved by the whole crawl loop. -/
theorem crawlLoop_inv (web : Web) (stopAfter : Option Nat)
    (P : CrawlerState → Prop)
    (hstep : ∀ flag st, st.backlog ≠ [] → P st → P (drainStep web flag st)) :
    ∀ (fuel i : Nat) (st : CrawlerState), P st →
      P (crawlLoop web stopAfter fuel i st) := by
  intro fuel
  induction fuel with
  | zero => intro i st h; exact h
  | succ n ih =>
    intro i st h
    unfold crawlLoop
    cases hb : st.backlog with
    | nil => exact h
    | cons u rest =>
      exact ih _ _ (hstep (flagAt stopAfter i) st (by simp [hb]) h)

/-! ### C4: the NoAccess error and the accessed-page counter -/

/-- Number of links the extractor yields for one page under `web`. -/
def linkCount (web : Web) (p : URL) : Nat :=
  (extractAll web p).1.length

/-- Total number of links yielded by the pages fetched so far. -/
def pagesLinkSum (web : Web) (ps : List URL) : Nat :=
  (ps.map (linkCount web)).sum

/-- The access counter equals the link total over the fetched pages. -/
def AccessedSum (web : Web) (st : CrawlerState) : Prop :=
  st.accessed = pagesLinkSum web st.fetchedURLs

theorem foldl_processLink_accessed (page : URL) :
    ∀ (links : List String) (st : CrawlerState),
      (links.foldl (fun s l => processLink s page l) st).accessed
          = st.accessed + links.length ∧
      (links.foldl (fun s l => processLink s page l) st).fetchedURLs
          = st.fetchedURLs := by
  intro links
  induction links with
  | nil => intro st; exact ⟨rfl, rfl⟩
  | cons l rest ih =>
    intro st
    have hc := processLink_const st page l
    have := ih (processLink st page l)
    constructor
    · rw [List.foldl_cons, this.1, hc.2.2.2.2.2.1, List.length_cons]
      omega
    · rw [List.foldl_cons, this.2, hc.2.2.1]

theorem drainStep_accessedSum (web : Web) (flag : Bool) (st : CrawlerState)
    (h : AccessedSum web st) : AccessedSum web (drainStep web flag st) := by
  unfold drainStep
  cases hb : st.backlog with
  | nil => exact h
  | cons u rest =>
    by_cases hflag : flag = true
    · simpa [hflag, AccessedSum] using h
    · simp only [Bool.not_eq_true] at hflag
      simp only [hflag, Bool.false_eq_true, if_false, AccessedSum]
      unfold processPage
      have hacc := foldl_processLink_accessed u (extractAll web u).1
        { st with backlog := rest, fetchedURLs := st.fetchedURLs ++ [u] }
      simp only [hacc.1, hacc.2]
      unfold AccessedSum at h
      simp [pagesLinkSum, linkCount, h]

/-- C4 (amended).  The crawl fails with the `unable to access url` error
precisely when the accessed-page counter is zero at completion, which is
precisely when no fetched page ever yielded a link — a condition that the
root being unfetchable implies but that also holds for a reachable,
linkless root; in every other case the accumulated site map is returned
(even when partial). -/
theorem C4_noaccess_iff (web : Web) (stopAfter : Option Nat) (fuel : Nat)
    (root : URL) (config : Config) (st0 : CrawlerState)
    (h0 : newDomainCrawler root config = .ok st0)
    (res : Except String SiteMap) (stF : CrawlerState)
    (hrun : Crawl web stopAfter fuel st0 = some (res, stF)) :
    ((∃ e, res = .error e) ↔ stF.accessed = 0) ∧
    (stF.accessed = 0 ↔ ∀ p ∈ stF.fetchedURLs, (extractAll web p).1 = []) ∧
    (∀ e, res = .error e → e = "unable to access url " ++ root.toString) ∧
    (stF.accessed ≠ 0 → res = .ok stF.siteMap) := by
  have hst0 : st0.fetchedURLs = [] ∧ st0.accessed = 0 ∧ st0.root = root := by
    unfold newDomainCrawler at h0
    cases hv : config.Validate with
    | some e => rw [hv] at h0; exact absurd h0 (by simp)
    | none =>
      rw [hv] at h0
      cases h0
      exact ⟨rfl, rfl, rfl⟩
  have hsum : AccessedSum web (crawlLoop web stopAfter fuel 0 st0) := by
    refine crawlLoop_inv web stopAfter (AccessedSum web)
      (fun flag st _ h => drainStep_accessedSum web flag st h) fuel 0 st0 ?_
    unfold AccessedSum
    rw [hst0.1, hst0.2.1]
    rfl
  have hiff : (crawlLoop web stopAfter fuel 0 st0).accessed = 0
      ↔ ∀ p ∈ (crawlLoop web stopAfter fuel 0 st0).fetchedURLs,
          (extractAll web p).1 = [] := by
    rw [hsum]
    unfold pagesLinkSum
    rw [List.sum_eq_zero_iff]
    constructor
    · intro hall p hp
      rw [← List.length_eq_zero]
      exact hall (linkCount web p) (List.mem_map_of_mem (linkCount web) hp)
    · intro hall x hx
      obtain ⟨p, hp, hpx⟩ := List.mem_map.mp hx
      rw [← hpx]
      unfold linkCount
      rw [hall p hp]
      rfl
  simp only [Crawl] at hrun
  cases hb : (crawlLoop web stopAfter fuel 0 st0).backlog with
  | cons u rest => rw [hb] at hrun; exact absurd hrun (by simp)
  | nil =>
    rw [hb] at hrun
    by_cases hacc : (crawlLoop web stopAfter fuel 0 st0).accessed = 0
    · rw [if_pos hacc, Option.some_inj, Prod.mk.injEq] at hrun
      obtain ⟨hres, hstF⟩ := hrun
      subst hres
      subst hstF
      refine ⟨⟨fun _ => hacc, fun _ => ⟨_, rfl⟩⟩, hiff, ?_, fun h => absurd hacc h⟩
      intro e hee
      have := Except.error.inj hee
      rw [← this, hst0.2.2]
    · rw [if_neg hacc, Option.some_inj, Prod.mk.injEq] at hrun
      obtain ⟨hres, hstF⟩ := hrun
      subst hres
      subst hstF
      refine ⟨⟨?_, fun h => absurd h hacc⟩, hiff, ?_, fun _ => rfl⟩
      · rintro ⟨e, hee⟩
        exact absurd hee (by simp)
      · intro e hee
        exact absurd hee (by simp)

/-- The web of the C4 counterexample: the root responds 200 with a body
containing no anchors; everything else is unreachable. -/
def webLinkless : Web := fun s =>
  if s = "http://e.com/" then .ok ⟨200, none, [], false⟩ else .fetchErr

/-- A fully valid configuration (the defaults of `NewConfig`). -/
def cfgDefault : Config :=
  ⟨8, 8192, 0, 30000000000, 10000000000, some (), some (), some ValidateHosts⟩

/-- C4 counterexample: the root is perfectly fetchable (its GET succeeds)
but carries no links, and `Crawl` nevertheless returns the NoAccess-style
error — refuting the reading that the error occurs only when "the root
itself could not be fetched". -/
theorem C4_counterexample :
    CrawlDomainWithURL webLinkless none 2 rootEx cfgDefault
        = some (.error ("unable to access url http://e.com/")) ∧
    webLinkless rootEx.toString = .ok ⟨200, none, [], false⟩ :=
  ⟨rfl, rfl⟩

/-- Witness for C4's amended theorem at the linkless-root scenario. -/
theorem C4_noaccess_iff_witness :
    ∃ st0 res stF,
      newDomainCrawler rootEx cfgDefault = .ok st0 ∧
      Crawl webLinkless none 2 st0 = some (res, stF) ∧
      (((∃ e, res = .error e) ↔ stF.accessed = 0) ∧
        (stF.accessed = 0 ↔ ∀ p ∈ stF.fetchedURLs, (extractAll webLinkless p).1 = []) ∧
        (∀ e, res = .error e → e = "unable to access url " ++ rootEx.toString) ∧
        (stF.accessed ≠ 0 → res = .ok stF.siteMap)) := by
  refine ⟨_, _, _, rfl, rfl, ?_⟩
  exact C4_noaccess_iff webLinkless none 2 rootEx cfgDefault _ rfl _ _ rfl

/-! ### C1: idempotent admission -/

/-- Does this phase record a call that returned `true`? -/
def isDoneTrue (p : AdmissionPhase) : Bool := p == .done true

theorem countP_set_add (f : AdmissionPhase → Bool) :
    ∀ (l : List AdmissionPhase) (i : Nat) (v old : AdmissionPhase),
      l[i]? = some old →
      (l.set i v).countP f + (if f old then 1 else 0)
        = l.countP f + (if f v then 1 else 0) := by
  intro l
  induction l with
  | nil => intro i v old h; simp at h
  | cons a t ih =>
    intro i v old h
    cases i with
    | zero =>
      simp only [List.getElem?_cons_zero, Option.some_inj] at h
      subst h
      simp [List.countP_cons]
      omega
    | succ n =>
      simp only [List.getElem?_cons_succ] at h
      have := ih n v old h
      simp only [List.set_cons_succ, List.countP_cons]
      omega

theorem mem_set_cases {α : Type} :
    ∀ (l : List α) (i : Nat) (v a : α), a ∈ l.set i v → a ∈ l ∨ a = v := by
  intro l
  induction l with
  | nil => intro i v a h; simp at h
  | cons x t ih =>
    intro i v a h
    cases i with
    | zero =>
      rw [List.set_cons_zero] at h
      rcases List.mem_cons.mp h with h | h
      · exact Or.inr h
      · exact Or.inl (List.mem_cons_of_mem _ h)
    | succ n =>
      rw [List.set_cons_succ] at h
      rcases List.mem_cons.mp h with h | h
      · exact Or.inl (h ▸ List.mem_cons_self _ _)
      · rcases ih n v a h with h2 | h2
        · exact Or.inl (List.mem_cons_of_mem _ h2)
        · exact Or.inr h2

/-- The interleaving invariant of the double-checked admission protocol:
at most one call has returned `true`; the key is in the store exactly when
one has; and any call that has (tentatively or finally) observed "already
present" did so because the key really is present. -/
def admInv (key : String) (st : AdmissionState) : Prop :=
  trueCount st ≤ 1 ∧
  (mapContains st.keys key = true ↔ trueCount st = 1) ∧
  (∀ p ∈ st.phases, (p = .done false ∨ p = .checked false) →
      mapContains st.keys key = true)

theorem admissionStep_inv (key : String) (st : AdmissionState) (i : Nat)
    (h : admInv key st) : admInv key (admissionStep true key st i) := by
  obtain ⟨h1, h2, h3⟩ := h
  unfold admissionStep
  cases hp : st.phases[i]? with
  | none => exact ⟨h1, h2, h3⟩
  | some p =>
    have hpmem : p ∈ st.phases := List.getElem?_mem hp
    cases p with
    | idle =>
      show admInv key { st with phases := st.phases.set i (.checked (!(mapContains st.keys key))) }
      have hc : trueCount { st with phases := st.phases.set i (.checked (!(mapContains st.keys key))) } = trueCount st := by
        show (st.phases.set i (.checked (!(mapContains st.keys key)))).countP isDoneTrue = st.phases.countP isDoneTrue
        have hcount := countP_set_add isDoneTrue st.phases i (.checked (!(mapContains st.keys key))) .idle hp
        simp only [isDoneTrue] at hcount
        simpa using hcount
      refine ⟨?_, ?_, ?_⟩
      · rw [hc]; exact h1
      · show mapContains st.keys key = true ↔ _
        rw [hc]; exact h2
      · intro q hq hqcase
        show mapContains st.keys key = true
        rcases mem_set_cases _ _ _ _ hq with hq2 | hq2
        · exact h3 q hq2 hqcase
        · subst hq2
          rcases hqcase with hcc | hcc
          · exact absurd hcc (by simp)
          · have : (!(mapContains st.keys key)) = false :=
              AdmissionPhase.checked.inj hcc
            simpa using this
    | checked b =>
      cases b with
      | false =>
        show admInv key { st with phases := st.phases.set i (.done false) }
        have hc : trueCount { st with phases := st.phases.set i (.done false) } = trueCount st := by
          show (st.phases.set i (.done false)).countP isDoneTrue = st.phases.countP isDoneTrue
          have hcount := countP_set_add isDoneTrue st.phases i (.done false) (.checked false) hp
          simp only [isDoneTrue] at hcount
          simpa using hcount
        refine ⟨?_, ?_, ?_⟩
        · rw [hc]; exact h1
        · show mapContains st.keys key = true ↔ _
          rw [hc]; exact h2
        · intro q hq hqcase
          show mapContains st.keys key = true
          exact h3 _ hpmem (Or.inr rfl)
      | true =>
        show admInv key { st with keys := mapInsert st.keys key, phases := st.phases.set i (.done (!(mapContains st.keys key))) }
        by_cases hck : mapContains st.keys key = true
        · -- already present: the double check refuses, the store is unchanged
          rw [hck]
          simp only [Bool.not_true]
          have hkeys : mapInsert st.keys key = st.keys := by
            unfold mapInsert
            exact if_pos hck
          rw [hkeys]
          have hc : trueCount { st with phases := st.phases.set i (.done false) } = trueCount st := by
            show (st.phases.set i (.done false)).countP isDoneTrue = st.phases.countP isDoneTrue
            have hcount := countP_set_add isDoneTrue st.phases i (.done false) (.checked true) hp
            simp only [isDoneTrue] at hcount
            simpa using hcount
          refine ⟨?_, ?_, ?_⟩
          · rw [hc]; exact h1
          · show mapContains st.keys key = true ↔ _
            rw [hc]; exact h2
          · intro q hq hqcase
            show mapContains st.keys key = true
            exact hck
        · -- fresh: the test-and-set admits the key and returns true
          simp only [Bool.not_eq_true] at hck
          rw [hck]
          simp only [Bool.not_false]
          have hkeys : mapInsert st.keys key = st.keys ++ [key] :=
            mapInsert_of_not_mem _ _ ((mapContains_eq_false_iff _ _).mp hck)
          rw [hkeys]
          have hkmem : mapContains (st.keys ++ [key]) key = true :=
            (mapContains_iff _ _).mpr
              (List.mem_append_right _ (List.mem_singleton.mpr rfl))
          have hzero : trueCount st = 0 := by
            by_contra hnz
            have h1' : trueCount st = 1 := by omega
            rw [← h2, hck] at h1'
            exact absurd h1' (by simp)
          have hc : trueCount { st with keys := st.keys ++ [key], phases := st.phases.set i (.done true) } = 1 := by
            show (st.phases.set i (.done true)).countP isDoneTrue = 1
            have hcount := countP_set_add isDoneTrue st.phases i (.done true) (.checked true) hp
            have e1 : isDoneTrue (.checked true) = false := rfl
            have e2 : isDoneTrue (.done true) = true := rfl
            rw [e1, e2] at hcount
            have hz2 : st.phases.countP isDoneTrue = 0 := hzero
            simp at hcount
            omega
          refine ⟨?_, ?_, ?_⟩
          · rw [hc]
          · show mapContains (st.keys ++ [key]) key = true ↔ _
            rw [hc]
            exact ⟨fun _ => rfl, fun _ => hkmem⟩
          · intro q hq hqc
            exact hkmem
    | done b => exact ⟨h1, h2, h3⟩

theorem admissionRun_inv (key : String) (sched : List Nat) :
    ∀ (st : AdmissionState), admInv key st →
      admInv key (admissionRun true key sched st) := by
  induction sched with
  | nil => intro st h; exact h
  | cons i rest ih =>
    intro st h
    exact ih _ (admissionStep_inv key st i h)

/-- C1.  Admission is idempotent.  (i) `appendURL` returns `true` iff the
candidate is in-domain and its canonical string has never been admitted;
(ii) it marks the string admitted, so any later call with the same
canonical string returns `false`; (iii) under any interleaving of any
number of concurrent calls for the same in-domain, not-yet-admitted
string — each call being the read-locked check followed by the
write-locked double check of `appendURL` — once all calls have returned,
exactly one of them returned `true`. -/
theorem C1_idempotent_admission :
    (∀ (s : SiteMap) (u : URL),
        (appendURL s u).1
          = (s.validator s.url u && !(mapContains s.siteURLS u.toString))) ∧
    (∀ (s : SiteMap) (u v : URL), (appendURL s u).1 = true →
        v.toString = u.toString → (appendURL (appendURL s u).2 v).1 = false) ∧
    (∀ (key : String) (sched : List Nat) (st0 : AdmissionState),
        mapContains st0.keys key = false →
        (∀ p ∈ st0.phases, p = .idle) →
        (∀ p ∈ (admissionRun true key sched st0).phases,
          p = .done true ∨ p = .done false) →
        st0.phases ≠ [] →
        trueCount (admissionRun true key sched st0) = 1) := by
  refine ⟨appendURL_fst, ?_, ?_⟩
  · intro s u v hu hv
    apply appendURL_false_of_mem
    rw [appendURL_snd, if_pos hu, hv]
    exact List.mem_append_right _ (List.mem_singleton.mpr rfl)
  · intro key sched st0 hkeys hidle hdone hne
    have hinv0 : admInv key st0 := by
      refine ⟨?_, ?_, ?_⟩
      · have : trueCount st0 = 0 := by
          unfold trueCount
          rw [List.countP_eq_zero]
          intro p hp
          rw [hidle p hp]
          simp [isDoneTrue]
        omega
      · have : trueCount st0 = 0 := by
          unfold trueCount
          rw [List.countP_eq_zero]
          intro p hp
          rw [hidle p hp]
          simp [isDoneTrue]
        rw [this, hkeys]
        simp
      · intro p hp hpc
        rcases hpc with hpc | hpc <;>
          · rw [hidle p hp] at hpc
            exact absurd hpc (by simp)
    obtain ⟨h1, h2, h3⟩ := admissionRun_inv key sched st0 hinv0
    -- the run's phase list is as long as the initial one, hence nonempty
    have hlen : ∀ (sch : List Nat) (st : AdmissionState),
        (admissionRun true key sch st).phases.length = st.phases.length := by
      intro sch
      induction sch with
      | nil => intro st; rfl
      | cons i rest ih =>
        intro st
        rw [admissionRun, List.foldl_cons, ← admissionRun, ih]
        show (admissionStep true key st i).phases.length = _
        unfold admissionStep
        cases hp : st.phases[i]? with
        | none => rfl
        | some p =>
          cases p with
          | idle => simp [List.length_set]
          | checked b => cases b <;> simp [List.length_set]
          | done b => rfl
    have hne' : (admissionRun true key sched st0).phases ≠ [] := by
      intro hnil
      apply hne
      have := hlen sched st0
      rw [hnil] at this
      exact List.length_eq_zero.mp this.symm
    obtain ⟨p0, hp0⟩ := List.exists_mem_of_ne_nil _ hne'
    rcases hdone p0 hp0 with hp0d | hp0d
    · -- some call returned true, so by the ≤ 1 bound exactly one did
      have : 0 < trueCount (admissionRun true key sched st0) := by
        apply List.countP_pos_iff.mpr
        exact ⟨p0, hp0, by rw [hp0d]; rfl⟩
      omega
    · -- a call returned false after observing the key present, so the key
      -- is present, so exactly one call returned true
      have := h3 p0 hp0 (Or.inl hp0d)
      exact h2.mp this

/-- Witness for C1: two concurrent calls interleaved check-check-set-set
yield `true` exactly once, and a fresh in-domain URL is admitted. -/
theorem C1_idempotent_admission_witness :
    trueCount (admissionRun true "http://e.com/a" [0, 1, 0, 1]
        ⟨[], [.idle, .idle]⟩) = 1 ∧
    (appendURL (NewSiteMap rootEx ValidateHosts)
        (URL.mk4 "http" "e.com" "/a" "")).1
      = (ValidateHosts rootEx (URL.mk4 "http" "e.com" "/a" "")
          && !(mapContains [] (URL.mk4 "http" "e.com" "/a" "").toString)) := by
  constructor
  · exact C1_idempotent_admission.2.2 "http://e.com/a" [0, 1, 0, 1]
      ⟨[], [.idle, .idle]⟩ rfl (by decide) (by decide) (by decide)
  · exact C1_idempotent_admission.1 (NewSiteMap rootEx ValidateHosts)
      (URL.mk4 "http" "e.com" "/a" "")

/-! ### C2: balanced outstanding-work accounting -/

/-- The accounting relation `c` units into processing a popped page:
the `WaitGroup` counter equals the channel population plus the in-flight
units, every queued URL was counted exactly once (`incCount`), and every
queued URL not still in the channel or in flight was marked done exactly
once (`decCount`).  `AccountingAt 0` holds between loop iterations,
`AccountingAt 1` while a popped page is being processed. -/
def AccountingAt (c : Nat) (st : CrawlerState) : Prop :=
  st.wg = ((st.backlog.length + c : Nat) : Int) ∧
  st.incCount = st.queued.length ∧
  st.decCount + st.backlog.length + c = st.queued.length

theorem processLink_accountingAt (c : Nat) (st : CrawlerState) (p : URL)
    (href : String) (h : AccountingAt c st) :
    AccountingAt c (processLink st p href) := by
  obtain ⟨h1, h2, h3⟩ := h
  have hd := (processLink_const st p href).2.2.2.1
  rcases processLink_cases st p href with
    ⟨hb, hw, hi, hq, _, _⟩ | ⟨hrefURL, _, _, _, hcase⟩
  · refine ⟨?_, ?_, ?_⟩ <;> simp only [hb, hw, hi, hq, hd] <;> omega
  · rcases hcase with ⟨_, hb, hw, hi, hq, _⟩ | ⟨_, hb, hw, hi, hq, _⟩ <;>
      refine ⟨?_, ?_, ?_⟩ <;>
        simp only [hb, hw, hi, hq, hd, List.length_append, List.length_cons,
          List.length_nil] <;>
        omega

theorem processPage_accountingAt (web : Web) (c : Nat) (st : CrawlerState)
    (p : URL) (h : AccountingAt c st) :
    AccountingAt c (processPage web st p) := by
  unfold processPage
  apply foldl_processLink_inv (AccountingAt c) p
    (fun st href hh => processLink_accountingAt c st p href hh)
  exact ⟨h.1, h.2.1, h.2.2⟩

theorem drainStep_accountingAt (web : Web) (flag : Bool) (st : CrawlerState)
    (hne : st.backlog ≠ []) (h : AccountingAt 0 st) :
    AccountingAt 0 (drainStep web flag st) := by
  obtain ⟨h1, h2, h3⟩ := h
  unfold drainStep
  cases hb : st.backlog with
  | nil => exact absurd hb hne
  | cons u rest =>
    rw [hb] at h1 h3
    simp only [List.length_cons] at h1 h3
    have hmid : AccountingAt 1 { st with backlog := rest } := by
      refine ⟨?_, h2, ?_⟩
      · show st.wg = ((rest.length + 1 : Nat) : Int)
        rw [h1]
      · show st.decCount + rest.length + 1 = st.queued.length
        omega
    have hstep : ∀ Y : CrawlerState, AccountingAt 1 Y →
        AccountingAt 0 { Y with wg := Y.wg - 1, decCount := Y.decCount + 1 } := by
      rintro Y ⟨g1, g2, g3⟩
      refine ⟨?_, g2, ?_⟩
      · show Y.wg - 1 = ((Y.backlog.length + 0 : Nat) : Int)
        rw [g1]
        push_cast
        omega
      · show Y.decCount + 1 + Y.backlog.length + 0 = Y.queued.length
        omega
    have hafter : AccountingAt 1
        (if flag = true then { st with backlog := rest }
         else processPage web { st with backlog := rest } u) := by
      by_cases hflag : flag = true
      · rw [if_pos hflag]; exact hmid
      · rw [if_neg hflag]; exact processPage_accountingAt web 1 _ u hmid
    exact hstep _ hafter

/-- The `closedCount` ghost is constant throughout the drain loop. -/
theorem crawlLoop_closedCount (web : Web) (stopAfter : Option Nat) :
    ∀ (fuel i : Nat) (st : CrawlerState),
      (crawlLoop web stopAfter fuel i st).closedCount = st.closedCount := by
  have hpl : ∀ st p href,
      (processLink st p href).closedCount = st.closedCount :=
    fun st p href => (processLink_const st p href).2.2.2.2.1
  have hpp : ∀ st p, (processPage web st p).closedCount = st.closedCount := by
    intro st p
    unfold processPage
    have : ∀ (links : List String) (s : CrawlerState),
        ((links.foldl (fun s l => processLink s p l) s)).closedCount
          = s.closedCount := by
      intro links
      induction links with
      | nil => intro s; rfl
      | cons l rest ih => intro s; rw [List.foldl_cons, ih, hpl]
    exact this _ _
  have hds : ∀ flag st, (drainStep web flag st).closedCount = st.closedCount := by
    intro flag st
    unfold drainStep
    cases st.backlog with
    | nil => rfl
    | cons u rest =>
      by_cases hflag : flag = true
      · simp [hflag]
      · simp only [Bool.not_eq_true] at hflag
        simp [hflag, hpp]
  intro fuel
  induction fuel with
  | zero => intro i st; rfl
  | succ n ih =>
    intro i st
    unfold crawlLoop
    cases hb : st.backlog with
    | nil => rfl
    | cons u rest => rw [ih, hds]

/-- C2.  Work accounting is balanced, in the sequential (concurrency-1)
operational model: (i) no `processLink` disturbs the relation "counter =
queued minus done", which registers exactly one unit per accepted push;
(ii) between loop iterations the counter equals the channel population,
each queued URL (seed included) was counted exactly once and each
finished one marked done exactly once; (iii) the counter is never
negative; (iv) when `Crawl` returns, the channel was closed exactly once,
the counter is zero, and increments = queued URLs = decrements — the
normal, extractor-error and timed-out-skip paths all passing through the
same single `Done` per popped URL. -/
theorem C2_accounting (web : Web) (stopAfter : Option Nat) (root : URL)
    (config : Config) (st0 : CrawlerState)
    (h0 : newDomainCrawler root config = .ok st0) :
    (∀ (c : Nat) (st : CrawlerState) (p : URL) (href : String),
        AccountingAt c st → AccountingAt c (processLink st p href)) ∧
    (∀ fuel i, AccountingAt 0 (crawlLoop web stopAfter fuel i st0)) ∧
    (∀ fuel i, 0 ≤ (crawlLoop web stopAfter fuel i st0).wg) ∧
    (∀ fuel i, (crawlLoop web stopAfter fuel i st0).backlog = [] →
        (crawlLoop web stopAfter fuel i st0).wg = 0) ∧
    (∀ (fuel : Nat) (res : Except String SiteMap) (stF : CrawlerState),
        Crawl web stopAfter fuel st0 = some (res, stF) →
        stF.closedCount = 1 ∧ stF.wg = 0 ∧
        stF.incCount = stF.queued.length ∧
        stF.decCount = stF.queued.length) := by
  have hst0 : AccountingAt 0 st0 ∧ st0.closedCount = 0 := by
    unfold newDomainCrawler at h0
    cases hv : config.Validate with
    | some e => rw [hv] at h0; exact absurd h0 (by simp)
    | none =>
      rw [hv] at h0
      cases h0
      exact ⟨⟨rfl, rfl, rfl⟩, rfl⟩
  have hloop : ∀ fuel i, AccountingAt 0 (crawlLoop web stopAfter fuel i st0) :=
    fun fuel i => crawlLoop_inv web stopAfter (AccountingAt 0)
      (fun flag st hne h => drainStep_accountingAt web flag st hne h)
      fuel i st0 hst0.1
  refine ⟨processLink_accountingAt, hloop, ?_, ?_, ?_⟩
  · intro fuel i
    have := (hloop fuel i).1
    rw [this]
    omega
  · intro fuel i hb
    have := (hloop fuel i).1
    rw [this, hb]
    rfl
  · intro fuel res stF hrun
    simp only [Crawl] at hrun
    cases hb : (crawlLoop web stopAfter fuel 0 st0).backlog with
    | cons u rest => rw [hb] at hrun; exact absurd hrun (by simp)
    | nil =>
      rw [hb] at hrun
      have hA := hloop fuel 0
      have hclosed := crawlLoop_closedCount web stopAfter fuel 0 st0
      obtain ⟨a1, a2, a3⟩ := hA
      rw [hb] at a1 a3
      have hfacts : (crawlLoop web stopAfter fuel 0 st0).wg = 0 ∧
          (crawlLoop web stopAfter fuel 0 st0).incCount
            = (crawlLoop web stopAfter fuel 0 st0).queued.length ∧
          (crawlLoop web stopAfter fuel 0 st0).decCount
            = (crawlLoop web stopAfter fuel 0 st0).queued.length := by
        refine ⟨?_, a2, ?_⟩
        · rw [a1]; rfl
        · simpa using a3
      by_cases hacc : (crawlLoop web stopAfter fuel 0 st0).accessed = 0
      · rw [if_pos hacc, Option.some_inj, Prod.mk.injEq] at hrun
        obtain ⟨_, hstF⟩ := hrun
        subst hstF
        exact ⟨by rw [hclosed, hst0.2], hfacts.1, hfacts.2.1, hfacts.2.2⟩
      · rw [if_neg hacc, Option.some_inj, Prod.mk.injEq] at hrun
        obtain ⟨_, hstF⟩ := hrun
        subst hstF
        exact ⟨by rw [hclosed, hst0.2], hfacts.1, hfacts.2.1, hfacts.2.2⟩

/-- Witness for C2 at a concrete two-page crawl with a mid-crawl timeout
schedule (the skip path) alongside the normal path. -/
theorem C2_accounting_witness :
    ∃ st0, newDomainCrawler rootEx cfgDefault = .ok st0 ∧
      AccountingAt 0 (crawlLoop webLinkless (some 1) 4 0 st0) ∧
      0 ≤ (crawlLoop webLinkless (some 1) 4 0 st0).wg ∧
      (∀ (res : Except String SiteMap) (stF : CrawlerState),
        Crawl webLinkless (some 1) 4 st0 = some (res, stF) →
        stF.closedCount = 1 ∧ stF.wg = 0 ∧
        stF.incCount = stF.queued.length ∧
        stF.decCount = stF.queued.length) := by
  refine ⟨_, rfl, ?_, ?_, ?_⟩
  · exact (C2_accounting webLinkless (some 1) rootEx cfgDefault _ rfl).2.1 4 0
  · exact (C2_accounting webLinkless (some 1) rootEx cfgDefault _ rfl).2.2.1 4 0
  · intro res stF hrun
    exact (C2_accounting webLinkless (some 1) rootEx cfgDefault _ rfl).2.2.2.2
      4 res stF hrun

/-! ### C3: non-blocking bounded push and backpressure -/

/-- The canonical string a raw href resolves to from `page` (the dedup key
`realAllLinks` uses); `""` when the href does not parse. -/
def resolvedStr (page : URL) (href : String) : String :=
  match parseURL href with
  | some hrefURL => (resolveReference page hrefURL).toString
  | none => ""

/-- A link that will be admitted when processed from `page` against the
store `sm`: it parses, the resolved URL is in-domain, and its canonical
string is not yet admitted. -/
def freshLink (sm : SiteMap) (page : URL) (href : String) : Bool :=
  match parseURL href with
  | some hrefURL =>
    sm.validator sm.url (resolveReference page hrefURL)
      && !(mapContains sm.siteURLS (resolveReference page hrefURL).toString)
  | none => false

theorem freshLink_spec (sm : SiteMap) (page : URL) (href : String)
    (hrefURL : URL) (hp : parseURL href = some hrefURL)
    (h : freshLink sm page href = true) :
    sm.validator sm.url (resolveReference page hrefURL) = true ∧
    mapContains sm.siteURLS (resolveReference page hrefURL).toString = false := by
  unfold freshLink at h
  simp only [hp] at h
  rw [Bool.and_eq_true] at h
  refine ⟨h.1, ?_⟩
  have := h.2
  rw [Bool.not_eq_true'] at this
  exact this

theorem foldl_processLink_capacity (page : URL) :
    ∀ (links : List String) (st : CrawlerState),
      (∀ href ∈ links, freshLink st.siteMap page href = true) →
      (links.map (resolvedStr page)).Nodup →
      st.backlog.length ≤ st.cap →
      (links.foldl (fun s l => processLink s page l) st).backlog.length
          = min st.cap (st.backlog.length + links.length) ∧
      (links.foldl (fun s l => processLink s page l) st).droppedLinks.length
          = st.droppedLinks.length
            + (st.backlog.length + links.length
                - min st.cap (st.backlog.length + links.length)) ∧
      (links.foldl (fun s l => processLink s page l) st).cap = st.cap := by
  intro links
  induction links with
  | nil =>
    intro st _ _ hle
    refine ⟨?_, ?_, rfl⟩ <;> simp <;> omega
  | cons href rest ih =>
    intro st hfresh hnodup hle
    have hfh : freshLink st.siteMap page href = true :=
      hfresh href (List.mem_cons_self _ _)
    cases hp : parseURL href with
    | none =>
      exfalso
      unfold freshLink at hfh
      simp only [hp] at hfh
      exact absurd hfh (by simp)
    | some hrefURL =>
      obtain ⟨hval, hmem⟩ := freshLink_spec _ _ _ _ hp hfh
      have hadm : (appendURL st.siteMap (resolveReference page hrefURL)).1
          = true := by
        rw [appendURL_fst, hval, hmem]
        rfl
      have hstr : resolvedStr page href
          = (resolveReference page hrefURL).toString := by
        unfold resolvedStr
        rw [hp]
      have hnodup' : (rest.map (resolvedStr page)).Nodup := by
        rw [List.map_cons] at hnodup
        exact hnodup.of_cons
      have hnotin : ∀ href' ∈ rest,
          resolvedStr page href' ≠ (resolveReference page hrefURL).toString := by
        intro href' hh'
        rw [List.map_cons] at hnodup
        have hnd := (List.nodup_cons.mp hnodup).1
        intro heq
        apply hnd
        rw [hstr, ← heq]
        exact List.mem_map_of_mem _ hh'
      rw [List.foldl_cons]
      -- describe the state after the head link
      rcases processLink_cases st page href with
        ⟨_, _, _, _, _, hsm⟩ | ⟨hrefURL2, hp2, _, hsm, hcase⟩
      · -- impossible: the head link is admitted, so the store must change
        exfalso
        unfold processLink at hsm
        simp only [hp, hadm, if_true] at hsm
        by_cases hlen : st.backlog.length < st.cap <;>
          · simp only [hlen, if_true, if_false] at hsm
            rw [appendURL_snd, if_pos hadm] at hsm
            simp at hsm
      · rw [hp] at hp2
        have hsame : hrefURL2 = hrefURL := (Option.some_inj.mp hp2).symm
        rw [hsame] at hsm hcase
        -- url and validator of the store are unchanged by processLink
        have hurl2 : (processLink st page href).siteMap.url
            = st.siteMap.url := by
          unfold processLink
          simp only [hp]
          by_cases hlen : st.backlog.length < st.cap <;>
            simp [hadm, hlen, appendURL_url]
        have hval2 : (processLink st page href).siteMap.validator
            = st.siteMap.validator := by
          unfold processLink
          simp only [hp]
          by_cases hlen : st.backlog.length < st.cap <;>
            simp [hadm, hlen, appendURL_validator]
        have hcfresh : ∀ href' ∈ rest,
            freshLink (processLink st page href).siteMap page href' = true := by
          intro href' hh'
          have hf' := hfresh href' (List.mem_cons_of_mem _ hh')
          cases hp' : parseURL href' with
          | none =>
            exfalso
            unfold freshLink at hf'
            simp only [hp'] at hf'
            exact absurd hf' (by simp)
          | some hrefURL' =>
            obtain ⟨hv', hm'⟩ := freshLink_spec _ _ _ _ hp' hf'
            unfold freshLink
            simp only [hp']
            rw [hurl2, hval2, hsm, hv']
            have hnot : mapContains
                (st.siteMap.siteURLS
                  ++ [(resolveReference page hrefURL).toString])
                (resolveReference page hrefURL').toString = false := by
              rw [mapContains_eq_false_iff]
              intro hmm
              rcases List.mem_append.mp hmm with hmm | hmm
              · rw [mapContains_eq_false_iff] at hm'
                exact hm' hmm
              · have hes := List.mem_singleton.mp hmm
                apply hnotin href' hh'
                rw [← hes]
                unfold resolvedStr
                rw [hp']
            rw [hnot]
            rfl
        rcases hcase with ⟨hlt, hbl, _, _, _, hdr⟩ | ⟨hge, hbl, _, _, _, hdr⟩
        · -- push accepted
          have hcap := (processLink_const st page href).2.1
          have hih := ih (processLink st page href) hcfresh hnodup'
            (by rw [hbl, hcap, List.length_append]; simp; omega)
          rw [hbl, hcap, hdr] at hih
          simp only [List.length_append, List.length_singleton, List.length_nil,
            List.length_cons] at hih
          obtain ⟨i1, i2, i3⟩ := hih
          refine ⟨?_, ?_, i3⟩
          · rw [i1]
            simp only [List.length_cons, List.length_singleton, List.length_nil]
            omega
          · rw [i2]
            simp only [List.length_cons, List.length_singleton, List.length_nil]
            omega
        · -- push rejected, link dropped
          have hcap := (processLink_const st page href).2.1
          have hih := ih (processLink st page href) hcfresh hnodup'
            (by rw [hbl, hcap]; omega)
          rw [hbl, hcap, hdr] at hih
          simp only [List.length_append, List.length_singleton, List.length_nil,
            List.length_cons] at hih
          obtain ⟨i1, i2, i3⟩ := hih
          have hcapeq : st.backlog.length = st.cap := by omega
          refine ⟨?_, ?_, i3⟩
          · rw [i1]
            simp only [List.length_cons, List.length_singleton, List.length_nil]
            omega
          · rw [i2]
            simp only [List.length_cons, List.length_singleton, List.length_nil]
            omega

/-- C3.  The backlog push never blocks (it is the total function of the
`select`/`default`): when a link is admitted, the push is accepted iff the
population is strictly below capacity, and then it registers exactly one
unit of outstanding work and queues the URL; otherwise the URL is dropped
into the log and nothing else changes.  Consequently, with capacity `C`
and concurrency 1, a page offering `C + k` admissible, pairwise distinct
links processed from an empty channel retains exactly `C` of them in the
backlog and drops exactly `k`. -/
theorem C3_bounded_push (st : CrawlerState) (page : URL) :
    (∀ (href : String) (hrefURL : URL), parseURL href = some hrefURL →
      (appendURL st.siteMap (resolveReference page hrefURL)).1 = true →
      ((st.backlog.length < st.cap →
        (processLink st page href).backlog
          = st.backlog ++ [resolveReference page hrefURL] ∧
        (processLink st page href).wg = st.wg + 1 ∧
        (processLink st page href).droppedLinks = st.droppedLinks) ∧
       (st.cap ≤ st.backlog.length →
        (processLink st page href).backlog = st.backlog ∧
        (processLink st page href).wg = st.wg ∧
        (processLink st page href).droppedLinks
          = st.droppedLinks
              ++ [(resolveReference page hrefURL).toString]))) ∧
    (∀ (links : List String) (C k : Nat),
      st.cap = C → st.backlog = [] → st.droppedLinks = [] →
      links.length = C + k →
      (∀ href ∈ links, freshLink st.siteMap page href = true) →
      (links.map (resolvedStr page)).Nodup →
      (links.foldl (fun s l => processLink s page l) st).backlog.length = C ∧
      (links.foldl (fun s l => processLink s page l) st).droppedLinks.length
        = k) := by
  constructor
  · intro href hrefURL hp hadm
    constructor
    · intro hlt
      unfold processLink
      rw [hp]
      simp [hadm, hlt]
    · intro hge
      unfold processLink
      rw [hp]
      have hlt : ¬ st.backlog.length < st.cap := by omega
      simp [hadm, hlt]
  · intro links C k hcap hbl hdr hlen hfresh hnodup
    have := foldl_processLink_capacity page links st hfresh hnodup
      (by rw [hbl, hcap]; simp)
    rw [hbl, hdr, hcap] at this
    obtain ⟨i1, i2, _⟩ := this
    constructor
    · rw [i1, hlen]
      simp only [List.length_nil]
      omega
    · rw [i2, hlen]
      simp only [List.length_nil]
      omega

/-- Witness for C3: capacity 1, a page offering 2 fresh in-domain links —
one retained, one dropped; and the two push branches at a concrete
admitted link. -/
theorem C3_bounded_push_witness :
    ∃ st : CrawlerState,
      st.cap = 1 ∧ st.backlog = [] ∧ st.droppedLinks = [] ∧
      (["/a", "/b"].foldl (fun s l => processLink s rootEx l) st).backlog.length = 1 ∧
      (["/a", "/b"].foldl (fun s l => processLink s rootEx l) st).droppedLinks.length = 1 := by
  refine ⟨⟨rootEx, 1, NewSiteMap rootEx ValidateHosts, [], 1, 0, [], [], [rootEx.toString], 1, 0, 0⟩,
    rfl, rfl, rfl, ?_⟩
  have := (C3_bounded_push
    ⟨rootEx, 1, NewSiteMap rootEx ValidateHosts, [], 1, 0, [], [], [rootEx.toString], 1, 0, 0⟩
    rootEx).2 ["/a", "/b"] 1 1 rfl rfl rfl rfl (by decide) (by decide)
  exact this

/-! ### C9: overflow drops from the frontier, not from the result -/

theorem processLink_keys_mono (st : CrawlerState) (p : URL) (href : String)
    (k : String) (hk : k ∈ st.siteMap.siteURLS) :
    k ∈ (processLink st p href).siteMap.siteURLS := by
  rcases processLink_cases st p href with ⟨_, _, _, _, _, hsm⟩ | ⟨u, _, _, hsm, _⟩
  · rw [hsm]; exact hk
  · rw [hsm]; exact List.mem_append_left _ hk

/-- Every logged-as-dropped link is in the site map. -/
def DroppedSub (st : CrawlerState) : Prop :=
  ∀ d ∈ st.droppedLinks, d ∈ st.siteMap.siteURLS

theorem processLink_droppedSub (st : CrawlerState) (p : URL) (href : String)
    (h : DroppedSub st) : DroppedSub (processLink st p href) := by
  intro d hd
  rcases processLink_cases st p href with
    ⟨_, _, _, _, hdr, hsm⟩ | ⟨u, hp, _, hsm, hcase⟩
  · rw [hdr] at hd
    rw [hsm]
    exact h d hd
  · rcases hcase with ⟨_, _, _, _, _, hdr⟩ | ⟨_, _, _, _, _, hdr⟩
    · rw [hdr] at hd
      rw [hsm]
      exact List.mem_append_left _ (h d hd)
    · rw [hdr] at hd
      rw [hsm]
      rcases List.mem_append.mp hd with hd | hd
      · exact List.mem_append_left _ (h d hd)
      · exact List.mem_append_right _ hd

theorem drainStep_droppedSub (web : Web) (flag : Bool) (st : CrawlerState)
    (h : DroppedSub st) : DroppedSub (drainStep web flag st) := by
  unfold drainStep
  cases st.backlog with
  | nil => exact h
  | cons u rest =>
    have hmain : DroppedSub
        (if flag = true then { st with backlog := rest }
         else processPage web { st with backlog := rest } u) := by
      by_cases hflag : flag = true
      · rw [if_pos hflag]; exact h
      · rw [if_neg hflag]
        unfold processPage
        exact foldl_processLink_inv DroppedSub u
          (fun s href hh => processLink_droppedSub s u href hh)
          (extractAll web u).1 _ h
    exact hmain

theorem drainStep_keysMem (web : Web) (flag : Bool) (st : CrawlerState)
    (k : String) (h : k ∈ st.siteMap.siteURLS) :
    k ∈ (drainStep web flag st).siteMap.siteURLS := by
  unfold drainStep
  cases st.backlog with
  | nil => exact h
  | cons u rest =>
    have hmain : k ∈
        (if flag = true then { st with backlog := rest }
         else processPage web { st with backlog := rest } u).siteMap.siteURLS := by
      by_cases hflag : flag = true
      · rw [if_pos hflag]; exact h
      · rw [if_neg hflag]
        unfold processPage
        exact foldl_processLink_inv (fun s => k ∈ s.siteMap.siteURLS) u
          (fun s href hh => processLink_keys_mono s u href k hh)
          (extractAll web u).1 _ h
    exact hmain

/-- C9.  Admission precedes the push, so a URL admitted while the channel
is full is dropped from the crawl frontier only: (a) the drop event adds
the canonical string to the site map, adds nothing to the backlog or to
the queued ghosts, and logs the string as dropped; (b) every
dropped-and-logged string is in the final site map and among the rendered
lines, and any further `appendURL` of a URL with that string returns
`false` (so it can never be enqueued later). -/
theorem C9_overflow_keeps_result (web : Web) (stopAfter : Option Nat)
    (st0 : CrawlerState) (hds : DroppedSub st0) :
    (∀ (st : CrawlerState) (page : URL) (href : String) (hrefURL : URL),
      parseURL href = some hrefURL →
      (appendURL st.siteMap (resolveReference page hrefURL)).1 = true →
      st.cap ≤ st.backlog.length →
      (resolveReference page hrefURL).toString
          ∈ (processLink st page href).siteMap.siteURLS ∧
      (processLink st page href).backlog = st.backlog ∧
      (processLink st page href).wg = st.wg ∧
      (processLink st page href).queued = st.queued ∧
      (processLink st page href).droppedLinks
        = st.droppedLinks ++ [(resolveReference page hrefURL).toString]) ∧
    (∀ (fuel i : Nat) (d : String),
      d ∈ (crawlLoop web stopAfter fuel i st0).droppedLinks →
      d ∈ (crawlLoop web stopAfter fuel i st0).siteMap.siteURLS ∧
      d ∈ sortStrings (crawlLoop web stopAfter fuel i st0).siteMap.siteURLS ∧
      ∀ u : URL, u.toString = d →
        (appendURL (crawlLoop web stopAfter fuel i st0).siteMap u).1 = false) := by
  constructor
  · intro st page href hrefURL hp hadm hge
    have hnlt : ¬ st.backlog.length < st.cap := by omega
    have hkeys := appendURL_snd st.siteMap (resolveReference page hrefURL)
    rw [if_pos hadm] at hkeys
    unfold processLink
    simp only [hp, hadm, if_true, hnlt, if_false, hkeys]
    refine ⟨?_, ?_, ?_, ?_, ?_⟩ <;>
      first
        | trivial
        | exact List.mem_append_right _ (List.mem_singleton.mpr rfl)
  · intro fuel i d hd
    have hloop : DroppedSub (crawlLoop web stopAfter fuel i st0) :=
      crawlLoop_inv web stopAfter DroppedSub
        (fun flag st _ h => drainStep_droppedSub web flag st h) fuel i st0 hds
    have hmem := hloop d hd
    refine ⟨hmem, (mem_sortStrings_iff _ _).mpr hmem, ?_⟩
    intro u hu
    exact appendURL_false_of_mem _ _ (hu ▸ hmem)

/-- The web of the C9/C10 witnesses: the root page carries two in-domain
links and the linked pages carry none. -/
def webTwoLinks : Web := fun s =>
  if s = "http://e.com/" then .ok ⟨200, none, ["/a", "/b"], false⟩
  else if s = "http://e.com/a" then .ok ⟨200, none, [], false⟩
  else if s = "http://e.com/b" then .ok ⟨200, none, [], false⟩
  else .fetchErr

/-- A default configuration with `MaxPendingURLS = 1`. -/
def cfgCapOne : Config :=
  ⟨1, 1, 0, 30000000000, 10000000000, some (), some (), some ValidateHosts⟩

/-- Witness for C9: with capacity 1, `/b` is admitted but dropped on the
full channel; it is in the final store and its rendering, and a further
`appendURL` of it refuses. -/
theorem C9_overflow_keeps_result_witness :
    ∃ st0, newDomainCrawler rootEx cfgCapOne = .ok st0 ∧
      "http://e.com/b" ∈ (crawlLoop webTwoLinks none 4 0 st0).droppedLinks ∧
      "http://e.com/b" ∈ (crawlLoop webTwoLinks none 4 0 st0).siteMap.siteURLS ∧
      "http://e.com/b"
        ∈ sortStrings (crawlLoop webTwoLinks none 4 0 st0).siteMap.siteURLS ∧
      (∀ u : URL, u.toString = "http://e.com/b" →
        (appendURL (crawlLoop webTwoLinks none 4 0 st0).siteMap u).1 = false) := by
  refine ⟨_, rfl, ?_, ?_⟩
  · decide
  · exact (C9_overflow_keeps_result webTwoLinks none _
      (fun d hd => absurd hd (List.not_mem_nil d))).2 4 0 "http://e.com/b"
      (by decide)

/-! ### C10: the root is seeded, not admitted -/

/-- The canonical strings the links of page `p` resolve to under `web`
(the candidate keys `realAllLinks` would submit to `appendURL`). -/
def pageResolved (web : Web) (p : URL) : List String :=
  (extractAll web p).1.filterMap
    (fun href => (parseURL href).map
      (fun hrefURL => (resolveReference p hrefURL).toString))

/-- Every admitted key originates from a link of some fetched page. -/
def Provenance (web : Web) (st : CrawlerState) : Prop :=
  ∀ k ∈ st.siteMap.siteURLS, ∃ p ∈ st.fetchedURLs, k ∈ pageResolved web p

theorem foldl_processLink_provenance (web : Web) (page : URL) :
    ∀ (links : List String) (st : CrawlerState),
      page ∈ st.fetchedURLs →
      (∀ href ∈ links, href ∈ (extractAll web page).1) →
      Provenance web st →
      Provenance web (links.foldl (fun s l => processLink s page l) st) := by
  intro links
  induction links with
  | nil => intro st _ _ h; exact h
  | cons href rest ih =>
    intro st hpage hsub hprov
    rw [List.foldl_cons]
    have hfetched := (processLink_const st page href).2.2.1
    refine ih _ (by rw [hfetched]; exact hpage)
      (fun h' hh' => hsub h' (List.mem_cons_of_mem _ hh')) ?_
    intro k hk
    rcases processLink_cases st page href with
      ⟨_, _, _, _, _, hsm⟩ | ⟨hrefURL, hp, _, hsm, _⟩
    · rw [hsm] at hk
      obtain ⟨p, hp2, hm⟩ := hprov k hk
      exact ⟨p, by rw [hfetched]; exact hp2, hm⟩
    · rw [hsm] at hk
      rcases List.mem_append.mp hk with hk | hk
      · obtain ⟨p, hp2, hm⟩ := hprov k hk
        exact ⟨p, by rw [hfetched]; exact hp2, hm⟩
      · have hkeq := List.mem_singleton.mp hk
        refine ⟨page, by rw [hfetched]; exact hpage, ?_⟩
        unfold pageResolved
        apply List.mem_filterMap.mpr
        refine ⟨href, hsub href (List.mem_cons_self _ _), ?_⟩
        rw [hp, hkeq]
        rfl

theorem drainStep_provenance (web : Web) (flag : Bool) (st : CrawlerState)
    (h : Provenance web st) : Provenance web (drainStep web flag st) := by
  unfold drainStep
  cases st.backlog with
  | nil => exact h
  | cons u rest =>
    have hmain : Provenance web
        (if flag = true then { st with backlog := rest }
         else processPage web { st with backlog := rest } u) := by
      by_cases hflag : flag = true
      · rw [if_pos hflag]; exact h
      · rw [if_neg hflag]
        unfold processPage
        apply foldl_processLink_provenance web u (extractAll web u).1
        · exact List.mem_append_right _ (List.mem_singleton.mpr rfl)
        · intro href hh; exact hh
        · intro k hk
          obtain ⟨p, hp2, hm⟩ := h k hk
          exact ⟨p, List.mem_append_left _ hp2, hm⟩
    exact hmain

/-- C10.  `NewDomainCrawler` seeds the root into the channel without
admitting it to the site map (the store starts empty while the backlog
and queue hold the root), every key of the store originates from a
resolved link of some fetched page, and hence when no fetched page's
links resolve to the root string, the root is absent from both the final
store and its rendered lines. -/
theorem C10_root_seeded_not_admitted (web : Web) (stopAfter : Option Nat)
    (root : URL) (config : Config) (st0 : CrawlerState)
    (h0 : newDomainCrawler root config = .ok st0) :
    st0.siteMap.siteURLS = [] ∧
    st0.backlog = [root] ∧
    st0.queued = [root.toString] ∧
    (∀ (fuel i : Nat) (k : String),
      k ∈ (crawlLoop web stopAfter fuel i st0).siteMap.siteURLS →
      ∃ p ∈ (crawlLoop web stopAfter fuel i st0).fetchedURLs,
        k ∈ pageResolved web p) ∧
    (∀ fuel i : Nat,
      (∀ p ∈ (crawlLoop web stopAfter fuel i st0).fetchedURLs,
        root.toString ∉ pageResolved web p) →
      root.toString ∉ (crawlLoop web stopAfter fuel i st0).siteMap.siteURLS ∧
      root.toString
        ∉ sortStrings (crawlLoop web stopAfter fuel i st0).siteMap.siteURLS) := by
  have hst0 : st0.siteMap.siteURLS = [] ∧ st0.backlog = [root] ∧
      st0.queued = [root.toString] := by
    unfold newDomainCrawler at h0
    cases hv : config.Validate with
    | some e => rw [hv] at h0; exact absurd h0 (by simp)
    | none =>
      rw [hv] at h0
      cases h0
      exact ⟨rfl, rfl, rfl⟩
  have hprov : ∀ fuel i, Provenance web (crawlLoop web stopAfter fuel i st0) := by
    intro fuel i
    apply crawlLoop_inv web stopAfter (Provenance web)
      (fun flag st _ h => drainStep_provenance web flag st h) fuel i st0
    intro k hk
    rw [hst0.1] at hk
    exact absurd hk (List.not_mem_nil k)
  refine ⟨hst0.1, hst0.2.1, hst0.2.2, fun fuel i k hk => hprov fuel i k hk, ?_⟩
  intro fuel i hnone
  have hnot : root.toString ∉ (crawlLoop web stopAfter fuel i st0).siteMap.siteURLS := by
    intro hmem
    obtain ⟨p, hp2, hm⟩ := hprov fuel i root.toString hmem
    exact hnone p hp2 hm
  exact ⟨hnot, fun hmem => hnot ((mem_sortStrings_iff _ _).mp hmem)⟩

/-- The web of the C10 witness: the root page links only to `/a`, and
`/a` links to nothing — nothing ever links back to the root. -/
def webNoBacklink : Web := fun s =>
  if s = "http://e.com/" then .ok ⟨200, none, ["/a"], false⟩
  else if s = "http://e.com/a" then .ok ⟨200, none, [], false⟩
  else .fetchErr

/-- Witness for C10: a reachable root whose pages never link back to it is
absent from the final store and from the rendered lines. -/
theorem C10_root_seeded_not_admitted_witness :
    ∃ st0, newDomainCrawler rootEx cfgDefault = .ok st0 ∧
      st0.siteMap.siteURLS = [] ∧
      st0.backlog = [rootEx] ∧
      rootEx.toString ∉ (crawlLoop webNoBacklink none 3 0 st0).siteMap.siteURLS ∧
      rootEx.toString
        ∉ sortStrings (crawlLoop webNoBacklink none 3 0 st0).siteMap.siteURLS := by
  refine ⟨_, rfl, ?_⟩
  have h := C10_root_seeded_not_admitted webNoBacklink none rootEx cfgDefault _ rfl
  refine ⟨h.1, h.2.1, ?_⟩
  exact h.2.2.2.2 3 0 (by decide)

end Sitemapper
